import Mathlib

/- Verification of the RandomSorter allocation ledger and tree helpers
   (src/master/allocator/mesos/sorter/random/sorter.hpp).

   The resource-arithmetic library (mesos/resources.hpp,
   mesos/resource_quantities.hpp) is not part of the sources; its value
   types are modelled from the specification: a bundle distinguishes
   non-shared scalar quantities (per resource name) from shared resource
   instances (identity semantics, reference-counted).  Scalar names are
   drawn from a finite universe of size k, shared-instance identities
   from a finite universe of size m; each shared instance j has a fixed
   vector of scalar quantities shVal j.  Quantities are naturals. -/

namespace RandomSorter

/-- Modelled from the spec: a Resources bundle.  ns gives the non-shared
scalar quantity per resource name; sh gives the number of held copies of
each shared resource instance. -/
structure Resources (k m : ℕ) where
  ns : Fin k → ℕ
  sh : Fin m → ℕ
deriving DecidableEq

/-- Modelled from the spec: the empty Resources bundle. -/
def Resources.zero (k m : ℕ) : Resources k m :=
  ⟨fun _ => 0, fun _ => 0⟩

/-- Modelled from the spec: addition of Resources bundles; shared copies
(reference counts) add up. -/
def Resources.add {k m : ℕ} (a b : Resources k m) : Resources k m :=
  ⟨fun i => a.ns i + b.ns i, fun j => a.sh j + b.sh j⟩

/-- Modelled from the spec: subtraction of Resources bundles (used only
under a containment precondition, so truncated subtraction is exact). -/
def Resources.sub {k m : ℕ} (a b : Resources k m) : Resources k m :=
  ⟨fun i => a.ns i - b.ns i, fun j => a.sh j - b.sh j⟩

/-- Modelled from the spec: `a.contains b` — every non-shared quantity and
every shared copy count of b is available in a. -/
def Resources.contains {k m : ℕ} (a b : Resources k m) : Prop :=
  (∀ i, b.ns i ≤ a.ns i) ∧ (∀ j, b.sh j ≤ a.sh j)

instance {k m : ℕ} (a b : Resources k m) : Decidable (a.contains b) :=
  inferInstanceAs (Decidable (_ ∧ _))

/-- Modelled from the spec: the non-shared part of a bundle
(`Resources::nonShared()`). -/
def Resources.nonShared {k m : ℕ} (r : Resources k m) : Resources k m :=
  ⟨r.ns, fun _ => 0⟩

/-- Modelled from the spec: the shared part of a bundle
(`Resources::shared()`). -/
def Resources.shared {k m : ℕ} (r : Resources k m) : Resources k m :=
  ⟨fun _ => 0, r.sh⟩

/-- Modelled from the spec: `Resources::filter` restricted to a predicate
on shared-instance identity (the only use the ledger makes of it); entries
failing the predicate are dropped with all their copies. -/
def Resources.filterSh {k m : ℕ} (r : Resources k m) (p : Fin m → Bool) :
    Resources k m :=
  ⟨r.ns, fun j => if p j then r.sh j else 0⟩

/-- Modelled from the spec:
`ResourceQuantities::fromScalarResources(r.scalars())` — each non-shared
name contributes its quantity, and each shared instance present in the
bundle contributes its fixed scalar quantities exactly once, the copy
count being ignored (sharedness refers to identity, not quantity). -/
def scalarQuantities {k m : ℕ} (shVal : Fin m → Fin k → ℕ)
    (r : Resources k m) : Fin k → ℕ :=
  fun i => r.ns i + ∑ j : Fin m, (if r.sh j ≠ 0 then shVal j i else 0)

/-- Modelled from the spec: `ResourceQuantities::contains` — pointwise
domination of scalar quantities. -/
def qContains {k : ℕ} (a b : Fin k → ℕ) : Prop :=
  ∀ i, b i ≤ a i

instance {k : ℕ} (a b : Fin k → ℕ) : Decidable (qContains a b) :=
  inferInstanceAs (Decidable (∀ i, b i ≤ a i))

/-- Per-leaf allocation ledger, from `RandomSorter::Node::Allocation`:
a per-agent map of Resources (none marks an absent hashmap entry) and the
cached scalar quantity totals. -/
structure Allocation (k m : ℕ) where
  resources : ℕ → Option (Resources k m)
  totals : Fin k → ℕ

/-- Ledger with no agent entries and zero totals (a fresh Allocation). -/
def Allocation.empty (k m : ℕ) : Allocation k m :=
  ⟨fun _ => none, fun _ => 0⟩

/-- Reading `resources[slaveId]` as the C++ operator[] does: an absent
entry reads as the empty bundle. -/
def Allocation.agentRes {k m : ℕ} (st : Allocation k m) (slaveId : ℕ) :
    Resources k m :=
  (st.resources slaveId).getD (Resources.zero k m)

/-- Embedding of `Allocation::add` (sorter.hpp lines 321-336): shared
resources already present on the agent are filtered out of the quantities
added to totals; the full delta is added to the agent entry (creating it
when absent, as operator[] does). -/
def Allocation.add {k m : ℕ} (shVal : Fin m → Fin k → ℕ)
    (st : Allocation k m) (slaveId : ℕ) (toAdd : Resources k m) :
    Allocation k m :=
  let cur := st.agentRes slaveId
  let sharedToAdd := toAdd.shared.filterSh fun j => decide (cur.sh j = 0)
  let quantitiesToAdd := scalarQuantities shVal (toAdd.nonShared.add sharedToAdd)
  { resources := fun a => if a = slaveId then some (cur.add toAdd) else st.resources a
    totals := fun i => st.totals i + quantitiesToAdd i }

/-- Embedding of `Allocation::subtract` (sorter.hpp lines 338-367).
A CHECK failure (absent agent, delta not contained, or totals not
containing the quantities to remove) aborts the process and is modelled
as none.  The shared filter runs after the per-agent subtraction, so only
instances whose last copy disappeared are removed from totals; an agent
entry left empty is erased. -/
def Allocation.subtract {k m : ℕ} (shVal : Fin m → Fin k → ℕ)
    (st : Allocation k m) (slaveId : ℕ) (toRemove : Resources k m) :
    Option (Allocation k m) :=
  match st.resources slaveId with
  | none => none
  | some cur =>
    if cur.contains toRemove then
      let cur' := cur.sub toRemove
      let sharedToRemove := toRemove.shared.filterSh fun j => decide (cur'.sh j = 0)
      let quantitiesToRemove :=
        scalarQuantities shVal (toRemove.nonShared.add sharedToRemove)
      if qContains st.totals quantitiesToRemove then
        some
          { resources := fun a =>
              if a = slaveId then
                (if cur' = Resources.zero k m then none else some cur')
              else st.resources a
            totals := fun i => st.totals i - quantitiesToRemove i }
      else none
    else none

/-- Embedding of `Allocation::update` (sorter.hpp lines 369-399).
Totals are adjusted by the straight scalar quantities of the old and new
bundles with no shared filtering; CHECK failures are modelled as none;
an agent entry left empty is erased. -/
def Allocation.update {k m : ℕ} (shVal : Fin m → Fin k → ℕ)
    (st : Allocation k m) (slaveId : ℕ)
    (oldAllocation newAllocation : Resources k m) :
    Option (Allocation k m) :=
  let oldQ := scalarQuantities shVal oldAllocation
  let newQ := scalarQuantities shVal newAllocation
  match st.resources slaveId with
  | none => none
  | some cur =>
    if cur.contains oldAllocation then
      if qContains st.totals oldQ then
        let r := (cur.sub oldAllocation).add newAllocation
        some
          { resources := fun a =>
              if a = slaveId then
                (if r = Resources.zero k m then none else some r)
              else st.resources a
            totals := fun i => st.totals i - oldQ i + newQ i }
      else none
    else none

/-- Ledger invariant of the data model: the cached totals dominate the
straight scalar quantities of every agent entry.  It holds for every
state built from allocated and unallocated calls, and it is what the
fatal totals CHECKs of subtract and update rely on. -/
def totalsDominate {k m : ℕ} (shVal : Fin m → Fin k → ℕ)
    (st : Allocation k m) : Prop :=
  ∀ a cur, st.resources a = some cur →
    qContains st.totals (scalarQuantities shVal cur)

/-- Concrete scalar-value table for witnesses: one scalar name, one
shared instance of quantity 10 (the spec's shared disk example). -/
def shv10 : Fin 1 → Fin 1 → ℕ := fun _ _ => 10

/-- Concrete bundle holding one copy of the shared instance. -/
def dShared : Resources 1 1 := ⟨fun _ => 0, fun _ => 1⟩

/-- Ledger after allocating one copy of the shared instance to agent 0. -/
def stOneCopy : Allocation 1 1 :=
  Allocation.add shv10 (Allocation.empty 1 1) 0 dShared

/-- Ledger after allocating a second copy of the shared instance to
agent 0 (totals still 10, agent holds two copies). -/
def stTwoCopies : Allocation 1 1 :=
  Allocation.add shv10 stOneCopy 0 dShared

/-- Ledger holding a present-but-empty entry for agent 0, as created by
allocating an empty bundle (operator[] inserts a default entry). -/
def stEmptyEntry : Allocation 1 1 :=
  Allocation.add shv10 (Allocation.empty 1 1) 0 (Resources.zero 1 1)

/-- Node kinds, from `RandomSorter::Node::Kind` (sorter.hpp 200-205). -/
inductive Kind where
| ACTIVE_LEAF
| INACTIVE_LEAF
| INTERNAL
deriving DecidableEq

/-- Entry of a `children` vector: C++ stores Node pointers and compares
them by pointer identity, modelled by a numeric id together with the
child's kind (the only field addChild inspects). -/
structure ChildNode where
  id : ℕ
  kind : Kind
deriving DecidableEq

/-- Embedding of `Node::addChild` (sorter.hpp 300-314): the fatal
duplicate CHECK is modelled as none; an INACTIVE_LEAF child is appended
at the end of the vector, any other child is inserted at the
beginning. -/
def addChild (children : List ChildNode) (child : ChildNode) :
    Option (List ChildNode) :=
  if child ∈ children then none
  else if child.kind = Kind.INACTIVE_LEAF then some (children ++ [child])
  else some (child :: children)

/-- Embedding of `Node::removeChild` (sorter.hpp 291-298): the fatal
absent-child CHECK is modelled as none; otherwise the found occurrence is
erased. -/
def removeChild (children : List ChildNode) (child : ChildNode) :
    Option (List ChildNode) :=
  if child ∈ children then some (children.erase child) else none

/-- Ordering invariant on a `children` vector (sorter.hpp 252-260): no
inactive leaf precedes an active-leaf or internal child, i.e. once an
inactive leaf is seen every later entry is an inactive leaf. -/
def childrenOrdered (children : List ChildNode) : Prop :=
  List.Pairwise
    (fun a b => a.kind = Kind.INACTIVE_LEAF → b.kind = Kind.INACTIVE_LEAF)
    children

instance (children : List ChildNode) : Decidable (childrenOrdered children) :=
  inferInstanceAs (Decidable (List.Pairwise _ children))

/-- Node of the sorter tree for path purposes, from `RandomSorter::Node`:
the root, or a child carrying the edge name from its parent and its
kind.  The parent back-pointer of the source is the recursive
structure. -/
inductive PNode where
| root : PNode
| child (parent : PNode) (name : String) (kind : Kind) : PNode

/-- Embedding of the path computation of the Node constructor
(sorter.hpp 207-222): empty for the root, the name for a child of the
root, and the parent's path joined with a slash and the name
otherwise. -/
def PNode.path : PNode → String
| .root => ""
| .child .root n _ => n
| .child (.child q s k) n _ => (PNode.child q s k).path ++ "/" ++ n

/-- Segment names along the walk from the root to a node. -/
def PNode.segs : PNode → List String
| .root => []
| .child p n _ => p.segs ++ [n]

/-- Slash-join of a segment list, as the spec words the cached path. -/
def joinPath : List String → String
| [] => ""
| [x] => x
| x :: y :: ys => x ++ "/" ++ joinPath (y :: ys)

/-- Embedding of `Node::clientPath` (sorter.hpp 271-279): a node named
"." must be a leaf with a parent (fatal CHECKs otherwise, modelled as
none) and yields the parent's path; any other node yields its own cached
path.  The root carries no edge label and is modelled with the empty
name. -/
def PNode.clientPath : PNode → Option String
| .root => some (PNode.path .root)
| .child p nm k =>
  if nm = "." then
    (if k = Kind.ACTIVE_LEAF ∨ k = Kind.INACTIVE_LEAF then some p.path
     else none)
  else some (PNode.path (.child p nm k))

/-- Modelled from the spec: the sorter tree as seen by
`SortInfo::updateRelativeWeights` (whose body is outside the given
sources): a leaf with an activity flag, or an internal node with a list
of children; each node carries its `getWeight()` value as a rational. -/
inductive WTree where
| leaf (active : Bool) (w : ℚ)
| node (w : ℚ) (cs : List WTree)

/-- Modelled from the spec: `getWeight` of a node (the configured weight,
1 by default; the value is stored on the node here). -/
def wt : WTree → ℚ
| .leaf _ w => w
| .node w _ => w

mutual

/-- Modelled from the spec: whether a subtree has an active-leaf
descendant (an internal node is "active-through" when it does). -/
def hasAL : WTree → Bool
| .leaf a _ => a
| .node _ cs => hasALs cs

/-- Modelled from the spec: whether some subtree in the list has an
active-leaf descendant. -/
def hasALs : List WTree → Bool
| [] => false
| t :: ts => hasAL t || hasALs ts

end

/-- Modelled from the spec: the denominator of a child's share — the sum
of `getWeight` over the siblings that have an active-leaf descendant
(inactive leaves and inactive internal subtrees are excluded). -/
def actW : List WTree → ℚ
| [] => 0
| c :: ts => (if hasAL c then wt c else 0) + actW ts

mutual

/-- Modelled from the spec: the cached relative weights of the active
leaves of a subtree that receives overall share s, in traversal order.
Each internal node distributes its share among its active-through
children proportionally to their weights. -/
def lw : WTree → ℚ → List ℚ
| .leaf a _, s => if a then [s] else []
| .node _ cs, s => lws cs (actW cs) s

/-- Modelled from the spec: relative weights collected over a children
list, where W is the active-through weight sum of the whole sibling
list. -/
def lws : List WTree → ℚ → ℚ → List ℚ
| [], _, _ => []
| c :: ts, W, s =>
  (if hasAL c then lw c (s * (wt c / W)) else []) ++ lws ts W s

end

mutual

/-- Index paths (child positions from the root) of the active leaves of a
subtree, in traversal order. -/
def aps : WTree → List (List ℕ)
| .leaf a _ => if a then [[]] else []
| .node _ cs => apsL cs 0

/-- Index paths of active leaves over a children list, the head child
sitting at position i. -/
def apsL : List WTree → ℕ → List (List ℕ)
| [], _ => []
| c :: ts, i =>
  (if hasAL c then (aps c).map (fun p => i :: p) else []) ++ apsL ts (i + 1)

end

/-- Modelled from the spec: the ancestor share factors
`getWeight(c) / Σ getWeight(c')` (the sum over active-through siblings)
collected along the walk from the root to the active leaf addressed by
the index path; none when the path does not address an active leaf. -/
def sharesAt : WTree → List ℕ → Option (List ℚ)
| .leaf a _, [] => if a then some [] else none
| .leaf _ _, _ :: _ => none
| .node _ _, [] => none
| .node _ cs, i :: p =>
  match cs.get? i with
  | none => none
  | some c =>
    if hasAL c then (sharesAt c p).map (fun l => (wt c / actW cs) :: l)
    else none

/-- Modelled from the spec: the flat product form of an active leaf's
relative weight — the product over its ancestors of the share
`getWeight(c) / Σ getWeight(c')` over active-through siblings. -/
def relWProd (t : WTree) (p : List ℕ) : Option ℚ :=
  (sharesAt t p).map List.prod

mutual

/-- Positivity of every weight in a subtree (the spec's weights are
positive, 1 by default). -/
def allPosB : WTree → Bool
| .leaf _ w => decide (0 < w)
| .node w cs => decide (0 < w) && allPosL cs

/-- Positivity of every weight in a list of subtrees. -/
def allPosL : List WTree → Bool
| [] => true
| t :: ts => allPosB t && allPosL ts

end

/-- Concrete tree for the C9 witness: role team with weight 2 and two
active leaves of weight 1. -/
def wTeam : WTree := .node 2 [.leaf true 1, .leaf true 1]

/-- Concrete tree for the C9 witness: root with the team subtree and an
active leaf solo of weight 1 (spec scenario 5: relative weights 1/3
each). -/
def wRoot : WTree := .node 1 [wTeam, .leaf true 1]

/-- Extensionality for ledgers: equal components give equal ledgers. -/
theorem Allocation.ext {k m : ℕ} {a b : Allocation k m}
    (h₁ : a.resources = b.resources) (h₂ : a.totals = b.totals) : a = b := by
  cases a
  cases b
  simp_all

/-- Claim C1: `allocated` increases the cached totals by exactly the
scalar quantities of delta's non-shared part plus those shared instances
of delta not already present on the agent before the call, adds delta to
the agent's entry, leaves other agents untouched; and allocating copies
of shared resources all already held (with no non-shared part) leaves
totals unchanged while the agent entry gains the extra copies. -/
theorem allocated_spec {k m : ℕ} (shVal : Fin m → Fin k → ℕ)
    (st : Allocation k m) (slaveId : ℕ) (toAdd : Resources k m) :
    (∀ i, (st.add shVal slaveId toAdd).totals i =
        st.totals i + (toAdd.ns i +
          ∑ j ∈ Finset.univ.filter
              (fun j => toAdd.sh j ≠ 0 ∧ (st.agentRes slaveId).sh j = 0),
            shVal j i)) ∧
    (st.add shVal slaveId toAdd).resources slaveId =
        some ((st.agentRes slaveId).add toAdd) ∧
    (∀ a, a ≠ slaveId →
        (st.add shVal slaveId toAdd).resources a = st.resources a) ∧
    ((∀ i, toAdd.ns i = 0) →
      (∀ j, toAdd.sh j ≠ 0 → (st.agentRes slaveId).sh j ≠ 0) →
      (st.add shVal slaveId toAdd).totals = st.totals) := by
  refine ⟨?_, ?_, ?_, ?_⟩
  · intro i
    unfold Allocation.add scalarQuantities
    simp only [Resources.nonShared, Resources.shared, Resources.filterSh,
      Resources.add, Finset.sum_filter]
    congr 1
    congr 1
    apply Finset.sum_congr rfl
    intro j _
    by_cases h1 : toAdd.sh j = 0
    · simp [h1]
    · by_cases h2 : (st.agentRes slaveId).sh j = 0 <;> simp [h1, h2]
  · unfold Allocation.add
    simp
  · intro a ha
    unfold Allocation.add
    simp [ha]
  · intro hns hsh
    funext i
    unfold Allocation.add scalarQuantities
    simp only [Resources.nonShared, Resources.shared, Resources.filterSh,
      Resources.add]
    simp only [hns, Nat.zero_add, Nat.add_eq_left]
    rw [Finset.sum_eq_zero]
    intro j _
    by_cases h1 : toAdd.sh j = 0
    · simp [h1]
    · simp [hsh j h1]

/-- Witness for C1: one shared instance of quantity 10, already held once
on agent 0; allocating a second copy leaves totals unchanged. -/
theorem allocated_spec_witness :
    ((∀ i : Fin 1, dShared.ns i = 0) ∧
     (∀ j, dShared.sh j ≠ 0 → (stOneCopy.agentRes 0).sh j ≠ 0)) ∧
    (Allocation.add shv10 stOneCopy 0 dShared).totals = stOneCopy.totals := by
  refine ⟨⟨by decide, by decide⟩, ?_⟩
  exact (allocated_spec shv10 stOneCopy 0 dShared).2.2.2 (by decide) (by decide)

/-- Quantities of a non-shared part plus a presence-filtered shared part,
rewritten as the plain sum over the filtered instance set. -/
theorem filteredQuantities_eq {k m : ℕ} (shVal : Fin m → Fin k → ℕ)
    (x c : Resources k m) (i : Fin k) :
    scalarQuantities shVal
        (x.nonShared.add (x.shared.filterSh fun j => decide (c.sh j = 0))) i =
      x.ns i + ∑ j ∈ Finset.univ.filter
          (fun j => x.sh j ≠ 0 ∧ c.sh j = 0), shVal j i := by
  unfold scalarQuantities
  simp only [Resources.nonShared, Resources.shared, Resources.filterSh,
    Resources.add, Nat.add_zero, Finset.sum_filter]
  congr 1
  apply Finset.sum_congr rfl
  intro j _
  by_cases h1 : x.sh j = 0
  · simp [h1]
  · by_cases h2 : c.sh j = 0 <;> simp [h1, h2]

/-- Adding then subtracting a bundle is the identity on Resources. -/
theorem Resources.add_sub_cancel {k m : ℕ} (a b : Resources k m) :
    (a.add b).sub b = a := by
  cases a
  cases b
  simp only [Resources.add, Resources.sub, mk.injEq]
  exact ⟨funext fun _ => by omega, funext fun _ => by omega⟩

/-- A sum of bundles contains its right summand. -/
theorem Resources.contains_add_self {k m : ℕ} (a b : Resources k m) :
    (a.add b).contains b :=
  ⟨fun _ => Nat.le_add_left _ _, fun _ => Nat.le_add_left _ _⟩

/-- Straight scalar quantities are monotone under bundle containment. -/
theorem scalarQuantities_mono {k m : ℕ} (shVal : Fin m → Fin k → ℕ)
    {a b : Resources k m} (h : a.contains b) (i : Fin k) :
    scalarQuantities shVal b i ≤ scalarQuantities shVal a i := by
  unfold scalarQuantities
  apply Nat.add_le_add (h.1 i)
  apply Finset.sum_le_sum
  intro j _
  by_cases hb : b.sh j = 0
  · simp [hb]
  · have ha : a.sh j ≠ 0 := by
      intro h0
      exact hb (Nat.le_zero.mp (h0 ▸ h.2 j))
    simp [hb, ha]

/-- Quantities removed by `subtract` are dominated by the straight scalar
quantities of the agent's current bundle. -/
theorem removedQuantities_le {k m : ℕ} (shVal : Fin m → Fin k → ℕ)
    {cur toRemove : Resources k m} (hc : cur.contains toRemove) (i : Fin k) :
    toRemove.ns i + ∑ j ∈ Finset.univ.filter
        (fun j => toRemove.sh j ≠ 0 ∧ (cur.sub toRemove).sh j = 0), shVal j i ≤
      scalarQuantities shVal cur i := by
  unfold scalarQuantities
  apply Nat.add_le_add (hc.1 i)
  rw [← Finset.sum_filter]
  apply Finset.sum_le_sum_of_subset
  intro j hj
  simp only [Finset.mem_filter, Finset.mem_univ, true_and] at hj ⊢
  intro h0
  exact hj.1 (Nat.le_zero.mp (h0 ▸ hc.2 j))

/-- Characterization of `subtract` when all three CHECKs pass, with the
removed quantities kept in their raw source form. -/
theorem subtract_eq_of_checks {k m : ℕ} (shVal : Fin m → Fin k → ℕ)
    (st : Allocation k m) (slaveId : ℕ) (toRemove cur : Resources k m)
    (hcur : st.resources slaveId = some cur)
    (hc : cur.contains toRemove)
    (hq : qContains st.totals
      (scalarQuantities shVal (toRemove.nonShared.add
        (toRemove.shared.filterSh fun j => decide ((cur.sub toRemove).sh j = 0))))) :
    Allocation.subtract shVal st slaveId toRemove =
      some { resources := fun a =>
               if a = slaveId then
                 (if cur.sub toRemove = Resources.zero k m then none
                  else some (cur.sub toRemove))
               else st.resources a
             totals := fun i => st.totals i -
               scalarQuantities shVal (toRemove.nonShared.add
                 (toRemove.shared.filterSh
                   fun j => decide ((cur.sub toRemove).sh j = 0))) i } := by
  unfold Allocation.subtract
  rw [hcur]
  simp only [if_pos hc, if_pos hq]

/-- Counterexample to claim C2 as stated: a reachable leaf ledger (two
copies of the shared instance allocated to agent 0, then an update to
empty, which drains totals while a copy remains) on which the agent is
present and holds delta, yet `unallocated` hits the fatal totals CHECK
(modelled as none) instead of adjusting the ledger. -/
theorem unallocated_claim_counterexample :
    ((Allocation.update shv10 stTwoCopies 0 dShared (Resources.zero 1 1)).map
        (fun st2 => decide (st2.resources 0 = some dShared)) = some true) ∧
    Resources.contains dShared dShared ∧
    ((Allocation.update shv10 stTwoCopies 0 dShared (Resources.zero 1 1)).bind
        (fun st2 => Allocation.subtract shv10 st2 0 dShared)).isNone = true := by
  refine ⟨by decide, by decide, by decide⟩

/-- Claim C2 (amended): for a leaf ledger whose totals contain the
straight scalar quantities of the agent's bundle (as the ledger invariant
guarantees; the code CHECKs a consequence of this and aborts otherwise),
`unallocated` with a delta contained in the agent's bundle subtracts
delta from the agent entry, erases the entry if it became empty, and
decreases totals by the scalar quantities of delta's non-shared part plus
those shared instances of delta whose last copy disappeared; in
particular removing one of several copies (with no non-shared part)
leaves totals unchanged. -/
theorem unallocated_spec {k m : ℕ} (shVal : Fin m → Fin k → ℕ)
    (st : Allocation k m) (slaveId : ℕ) (toRemove cur : Resources k m)
    (hcur : st.resources slaveId = some cur)
    (hc : cur.contains toRemove)
    (hd : qContains st.totals (scalarQuantities shVal cur)) :
    Allocation.subtract shVal st slaveId toRemove =
      some { resources := fun a =>
               if a = slaveId then
                 (if cur.sub toRemove = Resources.zero k m then none
                  else some (cur.sub toRemove))
               else st.resources a
             totals := fun i => st.totals i - (toRemove.ns i +
               ∑ j ∈ Finset.univ.filter
                   (fun j => toRemove.sh j ≠ 0 ∧ (cur.sub toRemove).sh j = 0),
                 shVal j i) } ∧
    ((∀ i, toRemove.ns i = 0) →
     (∀ j, toRemove.sh j ≠ 0 → (cur.sub toRemove).sh j ≠ 0) →
     (Allocation.subtract shVal st slaveId toRemove).map Allocation.totals =
       some st.totals) := by
  have hq : qContains st.totals
      (scalarQuantities shVal
        (toRemove.nonShared.add
          (toRemove.shared.filterSh fun j => decide ((cur.sub toRemove).sh j = 0)))) := by
    intro i
    rw [filteredQuantities_eq]
    exact le_trans (removedQuantities_le shVal hc i) (hd i)
  have hmain : Allocation.subtract shVal st slaveId toRemove =
      some { resources := fun a =>
               if a = slaveId then
                 (if cur.sub toRemove = Resources.zero k m then none
                  else some (cur.sub toRemove))
               else st.resources a
             totals := fun i => st.totals i - (toRemove.ns i +
               ∑ j ∈ Finset.univ.filter
                   (fun j => toRemove.sh j ≠ 0 ∧ (cur.sub toRemove).sh j = 0),
                 shVal j i) } := by
    rw [subtract_eq_of_checks shVal st slaveId toRemove cur hcur hc hq]
    simp only [Option.some.injEq]
    refine Allocation.ext rfl ?_
    funext i
    dsimp only
    rw [filteredQuantities_eq]
  refine ⟨hmain, fun hns hsh => ?_⟩
  rw [hmain]
  simp only [Option.map_some']
  congr 1
  funext i
  have hempty : Finset.univ.filter
      (fun j => toRemove.sh j ≠ 0 ∧ (cur.sub toRemove).sh j = 0) = ∅ := by
    apply Finset.filter_false_of_mem
    intro j _
    rintro ⟨h1, h2⟩
    exact hsh j h1 h2
  rw [hempty]
  simp [hns i]

/-- Witness for C2 (amended): with two copies of the shared instance on
agent 0 and totals 10, removing one copy keeps the entry and leaves
totals unchanged. -/
theorem unallocated_spec_witness :
    (stTwoCopies.resources 0 = some ⟨fun _ => 0, fun _ => 2⟩ ∧
     Resources.contains ⟨fun _ => 0, fun _ => 2⟩ dShared ∧
     qContains stTwoCopies.totals
       (scalarQuantities shv10 ⟨fun _ => 0, fun _ => 2⟩)) ∧
    (Allocation.subtract shv10 stTwoCopies 0 dShared).map Allocation.totals =
      some stTwoCopies.totals := by
  refine ⟨⟨by decide, by decide, by decide⟩, ?_⟩
  exact (unallocated_spec shv10 stTwoCopies 0 dShared ⟨fun _ => 0, fun _ => 2⟩
      (by decide) (by decide) (by decide)).2 (by decide) (by decide)

/-- Counterexample to claim C3 as stated: on the reachable ledger whose
agent-0 entry is present but empty, `allocated` followed by `unallocated`
with the same (empty) delta erases the entry, so the per-agent map is not
restored. -/
theorem roundtrip_claim_counterexample :
    stEmptyEntry.resources 0 = some (Resources.zero 1 1) ∧
    (Allocation.subtract shv10
        (Allocation.add shv10 stEmptyEntry 0 (Resources.zero 1 1)) 0
        (Resources.zero 1 1)).map
      (fun r => decide (r.resources 0 = stEmptyEntry.resources 0)) =
      some false := by
  refine ⟨by decide, by decide⟩

/-- Claim C3 (amended): `allocated(p,a,r)` followed by `unallocated(p,a,r)`
restores the whole ledger — per-agent map and cached totals — provided the
prior entry for agent a is not present-but-empty (such entries arise only
from allocating an empty bundle; the round trip erases them). -/
theorem allocated_unallocated_roundtrip {k m : ℕ} (shVal : Fin m → Fin k → ℕ)
    (st : Allocation k m) (slaveId : ℕ) (delta : Resources k m)
    (h : st.resources slaveId ≠ some (Resources.zero k m)) :
    Allocation.subtract shVal (Allocation.add shVal st slaveId delta)
      slaveId delta = some st := by
  have hres : (Allocation.add shVal st slaveId delta).resources slaveId =
      some ((st.agentRes slaveId).add delta) := by
    unfold Allocation.add
    simp
  have htot : (Allocation.add shVal st slaveId delta).totals =
      fun i => st.totals i + scalarQuantities shVal
        (delta.nonShared.add (delta.shared.filterSh
          fun j => decide ((st.agentRes slaveId).sh j = 0))) i := rfl
  have hq : qContains (Allocation.add shVal st slaveId delta).totals
      (scalarQuantities shVal (delta.nonShared.add
        (delta.shared.filterSh fun j =>
          decide ((((st.agentRes slaveId).add delta).sub delta).sh j = 0)))) := by
    rw [Resources.add_sub_cancel, htot]
    intro i
    exact Nat.le_add_left _ _
  rw [subtract_eq_of_checks shVal (Allocation.add shVal st slaveId delta)
      slaveId delta ((st.agentRes slaveId).add delta) hres
      (Resources.contains_add_self _ _) hq]
  rw [Resources.add_sub_cancel]
  simp only [Option.some.injEq]
  refine Allocation.ext ?_ ?_
  · funext a
    by_cases ha : a = slaveId
    · subst ha
      cases hsr : st.resources a with
      | none =>
        have hz : st.agentRes a = Resources.zero k m := by
          unfold Allocation.agentRes
          rw [hsr]
          rfl
        simp [hz, hsr]
      | some v =>
        have hv : st.agentRes a = v := by
          unfold Allocation.agentRes
          rw [hsr]
          rfl
        have hvz : v ≠ Resources.zero k m := by
          intro hco
          exact h (hco ▸ hsr)
        simp [hv, hvz, hsr]
    · simp only [if_neg ha]
      unfold Allocation.add
      simp [ha]
  · funext i
    dsimp only
    rw [htot]
    dsimp only
    omega

/-- Witness for C3 (amended): allocating and deallocating one copy of the
shared instance on the one-copy ledger restores it exactly. -/
theorem allocated_unallocated_roundtrip_witness :
    stOneCopy.resources 0 ≠ some (Resources.zero 1 1) ∧
    Allocation.subtract shv10 (Allocation.add shv10 stOneCopy 0 dShared) 0
      dShared = some stOneCopy :=
  ⟨by decide, allocated_unallocated_roundtrip shv10 stOneCopy 0 dShared
    (by decide)⟩

/-- Counterexample to claim C4 as stated: after two shared copies and an
update to empty, agent 0 is present and holds old, yet the next update
aborts on the fatal totals CHECK (none) instead of substituting the
bundles and adjusting totals. -/
theorem update_claim_counterexample :
    ((Allocation.update shv10 stTwoCopies 0 dShared (Resources.zero 1 1)).map
        (fun st2 => decide (st2.resources 0 = some dShared ∧
          Resources.contains dShared dShared)) = some true) ∧
    ((Allocation.update shv10 stTwoCopies 0 dShared (Resources.zero 1 1)).bind
        (fun st2 => Allocation.update shv10 st2 0 dShared
          ⟨fun _ => 5, fun _ => 0⟩)).isNone = true := by
  refine ⟨by decide, by decide⟩

/-- Claim C4 (amended): when the agent is present, its bundle contains
old, and — as the code additionally CHECKs — totals contain the straight
scalar quantities of old, `update` sets the agent entry to
resources[a] - old + new (erasing it when empty; new may be empty) and
adjusts totals by the straight scalar quantities of old and new with no
shared-resource filtering. -/
theorem update_spec {k m : ℕ} (shVal : Fin m → Fin k → ℕ)
    (st : Allocation k m) (slaveId : ℕ)
    (oldA newA cur : Resources k m)
    (hcur : st.resources slaveId = some cur)
    (hc : cur.contains oldA)
    (ht : qContains st.totals (scalarQuantities shVal oldA)) :
    Allocation.update shVal st slaveId oldA newA =
      some { resources := fun a =>
               if a = slaveId then
                 (if (cur.sub oldA).add newA = Resources.zero k m then none
                  else some ((cur.sub oldA).add newA))
               else st.resources a
             totals := fun i => st.totals i - scalarQuantities shVal oldA i
               + scalarQuantities shVal newA i } := by
  unfold Allocation.update
  rw [hcur]
  simp only [if_pos hc, if_pos ht]

/-- Witness for C4 (amended): updating the two-copy ledger by removing
one copy with an empty replacement keeps the entry with one copy and
drains totals. -/
theorem update_spec_witness :
    (stTwoCopies.resources 0 = some ⟨fun _ => 0, fun _ => 2⟩ ∧
     Resources.contains ⟨fun _ => 0, fun _ => 2⟩ dShared ∧
     qContains stTwoCopies.totals (scalarQuantities shv10 dShared)) ∧
    Allocation.update shv10 stTwoCopies 0 dShared (Resources.zero 1 1) =
      some { resources := fun a =>
               if a = 0 then
                 (if (Resources.sub ⟨fun _ => 0, fun _ => 2⟩ dShared).add
                      (Resources.zero 1 1) = Resources.zero 1 1 then none
                  else some ((Resources.sub ⟨fun _ => 0, fun _ => 2⟩ dShared).add
                      (Resources.zero 1 1)))
               else stTwoCopies.resources a
             totals := fun i => stTwoCopies.totals i -
               scalarQuantities shv10 dShared i +
               scalarQuantities shv10 (Resources.zero 1 1) i } :=
  ⟨⟨by decide, by decide, by decide⟩,
   update_spec shv10 stTwoCopies 0 dShared (Resources.zero 1 1)
     ⟨fun _ => 0, fun _ => 2⟩ (by decide) (by decide) (by decide)⟩

/-- Counterexample to claim C5: the fatal totals CHECK inside update is
reachable under the stated preconditions.  Starting from the empty ledger,
two allocated calls put two copies of the shared instance on agent 0
(totals 10); an update removing one copy drains totals to 0 while a copy
remains; the next update satisfies agent-present and containment yet
aborts on the CHECK. -/
theorem update_check_counterexample :
    ((Allocation.update shv10 stTwoCopies 0 dShared (Resources.zero 1 1)).map
        (fun st2 => decide (st2.resources 0 = some dShared)) = some true) ∧
    Resources.contains dShared dShared ∧
    ((Allocation.update shv10 stTwoCopies 0 dShared (Resources.zero 1 1)).bind
        (fun st2 => Allocation.update shv10 st2 0 dShared
          (Resources.zero 1 1))).isNone = true := by
  refine ⟨by decide, by decide, by decide⟩

/-- Claim C5 (amended): the fatal totals CHECK of update is unreachable
on every ledger whose totals dominate the straight scalar quantities of
the agent's bundle — in particular on every state built by allocated and
unallocated calls alone, multiple shared copies included — but an
intervening update involving duplicate shared copies can break that
domination and make a later update's CHECK fire. -/
theorem update_check_unreachable {k m : ℕ} (shVal : Fin m → Fin k → ℕ)
    (st : Allocation k m) (slaveId : ℕ)
    (oldA newA cur : Resources k m)
    (hcur : st.resources slaveId = some cur)
    (hc : cur.contains oldA)
    (hd : qContains st.totals (scalarQuantities shVal cur)) :
    (Allocation.update shVal st slaveId oldA newA).isSome = true := by
  have ht : qContains st.totals (scalarQuantities shVal oldA) :=
    fun i => le_trans (scalarQuantities_mono shVal hc i) (hd i)
  unfold Allocation.update
  rw [hcur]
  simp only [if_pos hc, if_pos ht]
  rfl

/-- Witness for C5 (amended): on the two-copy ledger (built by allocated
calls only) any update removing one copy passes the CHECK. -/
theorem update_check_unreachable_witness :
    (stTwoCopies.resources 0 = some ⟨fun _ => 0, fun _ => 2⟩ ∧
     Resources.contains ⟨fun _ => 0, fun _ => 2⟩ dShared ∧
     qContains stTwoCopies.totals
       (scalarQuantities shv10 ⟨fun _ => 0, fun _ => 2⟩)) ∧
    (Allocation.update shv10 stTwoCopies 0 dShared
      (Resources.zero 1 1)).isSome = true :=
  ⟨⟨by decide, by decide, by decide⟩,
   update_check_unreachable shv10 stTwoCopies 0 dShared (Resources.zero 1 1)
     ⟨fun _ => 0, fun _ => 2⟩ (by decide) (by decide) (by decide)⟩

/-- Quantities of a sum of bundles are at most the quantities of the
first plus the non-shared part of the second and the shared instances of
the second that are absent from the first. -/
theorem scalarQuantities_add_le {k m : ℕ} (shVal : Fin m → Fin k → ℕ)
    (a b : Resources k m) (i : Fin k) :
    scalarQuantities shVal (a.add b) i ≤
      scalarQuantities shVal a i +
      (b.ns i + ∑ j ∈ Finset.univ.filter
          (fun j => b.sh j ≠ 0 ∧ a.sh j = 0), shVal j i) := by
  unfold scalarQuantities
  simp only [Resources.add, Finset.sum_filter]
  have hsum : ∑ j : Fin m, (if a.sh j + b.sh j ≠ 0 then shVal j i else 0) ≤
      (∑ j : Fin m, (if a.sh j ≠ 0 then shVal j i else 0)) +
      (∑ j : Fin m, (if b.sh j ≠ 0 ∧ a.sh j = 0 then shVal j i else 0)) := by
    rw [← Finset.sum_add_distrib]
    apply Finset.sum_le_sum
    intro j _
    split_ifs <;> omega
  omega

/-- The empty ledger satisfies the domination invariant. -/
theorem empty_totalsDominate {k m : ℕ} (shVal : Fin m → Fin k → ℕ) :
    totalsDominate shVal (Allocation.empty k m) := by
  intro a cur h
  simp [Allocation.empty] at h

/-- An `allocated` call preserves the domination invariant, so every
state built by allocated calls alone satisfies it (multiple copies of
shared resources included). -/
theorem allocated_preserves_totalsDominate {k m : ℕ}
    (shVal : Fin m → Fin k → ℕ) (st : Allocation k m) (slaveId : ℕ)
    (delta : Resources k m) (hd : totalsDominate shVal st) :
    totalsDominate shVal (Allocation.add shVal st slaveId delta) := by
  intro a cur h i
  have htot : (Allocation.add shVal st slaveId delta).totals i =
      st.totals i + scalarQuantities shVal
        (delta.nonShared.add (delta.shared.filterSh
          fun j => decide ((st.agentRes slaveId).sh j = 0))) i := rfl
  rw [htot]
  by_cases ha : a = slaveId
  · subst ha
    have hcur : cur = (st.agentRes a).add delta := by
      unfold Allocation.add at h
      simp only [if_true, Option.some.injEq] at h
      exact h.symm
    have h1 : scalarQuantities shVal (st.agentRes a) i ≤ st.totals i := by
      cases hsr : st.resources a with
      | none =>
        have hz : st.agentRes a = Resources.zero k m := by
          unfold Allocation.agentRes
          rw [hsr]
          rfl
        rw [hz]
        simp [scalarQuantities, Resources.zero]
      | some v =>
        have hv : st.agentRes a = v := by
          unfold Allocation.agentRes
          rw [hsr]
          rfl
        rw [hv]
        exact hd a v hsr i
    have h2 := scalarQuantities_add_le shVal (st.agentRes a) delta i
    rw [hcur, filteredQuantities_eq]
    omega
  · have hres : (Allocation.add shVal st slaveId delta).resources a =
        st.resources a := by
      unfold Allocation.add
      simp [ha]
    rw [hres] at h
    exact le_trans (hd a cur h i) (Nat.le_add_right _ _)

/-- Claim C6: `unallocated` with an absent agent or with a delta not
contained in the agent's recorded bundle hits a fatal CHECK (modelled as
none) rather than returning an adjusted ledger, and `update` behaves the
same when the agent is absent or old exceeds what is recorded. -/
theorem checks_fatal {k m : ℕ} (shVal : Fin m → Fin k → ℕ)
    (st : Allocation k m) (slaveId : ℕ)
    (delta oldA newA cur : Resources k m) :
    (st.resources slaveId = none →
      Allocation.subtract shVal st slaveId delta = none) ∧
    (st.resources slaveId = some cur → ¬ cur.contains delta →
      Allocation.subtract shVal st slaveId delta = none) ∧
    (st.resources slaveId = none →
      Allocation.update shVal st slaveId oldA newA = none) ∧
    (st.resources slaveId = some cur → ¬ cur.contains oldA →
      Allocation.update shVal st slaveId oldA newA = none) := by
  refine ⟨?_, ?_, ?_, ?_⟩
  · intro h
    unfold Allocation.subtract
    rw [h]
  · intro h hc
    unfold Allocation.subtract
    rw [h]
    simp [if_neg hc]
  · intro h
    unfold Allocation.update
    rw [h]
  · intro h hc
    unfold Allocation.update
    rw [h]
    simp [if_neg hc]

/-- Witness for C6: on the one-copy ledger, agent 5 is absent and agent 0
does not hold two copies, so all four fatal cases fire. -/
theorem checks_fatal_witness :
    (stOneCopy.resources 5 = none ∧ stOneCopy.resources 0 = some dShared ∧
     ¬ Resources.contains dShared ⟨fun _ => 0, fun _ => 2⟩) ∧
    (Allocation.subtract shv10 stOneCopy 5 dShared = none ∧
     Allocation.subtract shv10 stOneCopy 0 ⟨fun _ => 0, fun _ => 2⟩ = none ∧
     Allocation.update shv10 stOneCopy 5 dShared dShared = none ∧
     Allocation.update shv10 stOneCopy 0 ⟨fun _ => 0, fun _ => 2⟩ dShared = none) :=
  ⟨⟨by decide, by decide, by decide⟩,
   ⟨(checks_fatal shv10 stOneCopy 5 dShared dShared dShared dShared).1 (by decide),
    (checks_fatal shv10 stOneCopy 0 ⟨fun _ => 0, fun _ => 2⟩ dShared dShared
       dShared).2.1 (by decide) (by decide),
    (checks_fatal shv10 stOneCopy 5 dShared dShared dShared dShared).2.2.1
       (by decide),
    (checks_fatal shv10 stOneCopy 0 dShared ⟨fun _ => 0, fun _ => 2⟩ dShared
       dShared).2.2.2 (by decide) (by decide)⟩⟩

/-- Claim C7: on a children vector satisfying the ordering invariant,
`addChild` places an INACTIVE_LEAF child at the end of the vector and any
other child at the beginning, and the result again has no inactive leaf
preceding an active-leaf or internal child. -/
theorem addChild_ordering (children : List ChildNode) (child : ChildNode)
    (hmem : child ∉ children) (ho : childrenOrdered children) :
    addChild children child =
      some (if child.kind = Kind.INACTIVE_LEAF then children ++ [child]
            else child :: children) ∧
    childrenOrdered
      (if child.kind = Kind.INACTIVE_LEAF then children ++ [child]
       else child :: children) := by
  constructor
  · unfold addChild
    rw [if_neg hmem]
    by_cases hk : child.kind = Kind.INACTIVE_LEAF <;> simp [hk]
  · by_cases hk : child.kind = Kind.INACTIVE_LEAF
    · rw [if_pos hk]
      unfold childrenOrdered at ho ⊢
      rw [List.pairwise_append]
      refine ⟨ho, List.pairwise_singleton _ _, ?_⟩
      intro a _ b hb
      simp only [List.mem_singleton] at hb
      subst hb
      intro _
      exact hk
    · rw [if_neg hk]
      unfold childrenOrdered at ho ⊢
      exact List.Pairwise.cons (fun b _ hcontra => absurd hcontra hk) ho

/-- Witness for C7: adding an active leaf to an ordered vector holding an
internal child and an inactive leaf puts it at the front. -/
theorem addChild_ordering_witness :
    ((⟨2, Kind.ACTIVE_LEAF⟩ : ChildNode) ∉
        [(⟨0, Kind.INTERNAL⟩ : ChildNode), ⟨1, Kind.INACTIVE_LEAF⟩] ∧
     childrenOrdered
       [(⟨0, Kind.INTERNAL⟩ : ChildNode), ⟨1, Kind.INACTIVE_LEAF⟩]) ∧
    addChild [(⟨0, Kind.INTERNAL⟩ : ChildNode), ⟨1, Kind.INACTIVE_LEAF⟩]
        ⟨2, Kind.ACTIVE_LEAF⟩ =
      some (if (⟨2, Kind.ACTIVE_LEAF⟩ : ChildNode).kind = Kind.INACTIVE_LEAF
            then [(⟨0, Kind.INTERNAL⟩ : ChildNode), ⟨1, Kind.INACTIVE_LEAF⟩]
              ++ [⟨2, Kind.ACTIVE_LEAF⟩]
            else ⟨2, Kind.ACTIVE_LEAF⟩ ::
              [⟨0, Kind.INTERNAL⟩, ⟨1, Kind.INACTIVE_LEAF⟩]) :=
  ⟨⟨by decide, by decide⟩,
   (addChild_ordering [⟨0, Kind.INTERNAL⟩, ⟨1, Kind.INACTIVE_LEAF⟩]
     ⟨2, Kind.ACTIVE_LEAF⟩ (by decide) (by decide)).1⟩

/-- Claim C10: children vectors stay duplicate-free: `addChild` hits its
fatal CHECK (none) when the child is already present, `removeChild` hits
its fatal CHECK (none) when the child is absent, and both operations
preserve Nodup, so each child occurs exactly once and only extant
children can be detached. -/
theorem childList_unique (children : List ChildNode) (child : ChildNode) :
    (child ∈ children → addChild children child = none) ∧
    (child ∉ children → removeChild children child = none) ∧
    (children.Nodup → ∀ l', addChild children child = some l' → l'.Nodup) ∧
    (children.Nodup → ∀ l', removeChild children child = some l' →
      l'.Nodup) := by
  refine ⟨?_, ?_, ?_, ?_⟩
  · intro h
    unfold addChild
    rw [if_pos h]
  · intro h
    unfold removeChild
    rw [if_neg h]
  · intro hn l' h
    unfold addChild at h
    by_cases hm : child ∈ children
    · rw [if_pos hm] at h
      exact Option.noConfusion h
    · rw [if_neg hm] at h
      by_cases hk : child.kind = Kind.INACTIVE_LEAF
      · rw [if_pos hk] at h
        simp only [Option.some.injEq] at h
        subst h
        refine List.nodup_append.mpr ⟨hn, List.nodup_singleton _, ?_⟩
        intro a ha hb
        simp only [List.mem_singleton] at hb
        subst hb
        exact hm ha
      · rw [if_neg hk] at h
        simp only [Option.some.injEq] at h
        subst h
        exact List.nodup_cons.mpr ⟨hm, hn⟩
  · intro hn l' h
    unfold removeChild at h
    by_cases hm : child ∈ children
    · rw [if_pos hm] at h
      simp only [Option.some.injEq] at h
      subst h
      exact hn.erase child
    · rw [if_neg hm] at h
      exact Option.noConfusion h

/-- Witness for C10: adding a present child faults, removing an absent
child faults, and a successful insertion keeps the list duplicate-free. -/
theorem childList_unique_witness :
    ((⟨0, Kind.INTERNAL⟩ : ChildNode) ∈ [(⟨0, Kind.INTERNAL⟩ : ChildNode)] ∧
     (⟨1, Kind.ACTIVE_LEAF⟩ : ChildNode) ∉
       [(⟨0, Kind.INTERNAL⟩ : ChildNode)] ∧
     [(⟨0, Kind.INTERNAL⟩ : ChildNode)].Nodup) ∧
    (addChild [(⟨0, Kind.INTERNAL⟩ : ChildNode)] ⟨0, Kind.INTERNAL⟩ = none ∧
     removeChild [(⟨0, Kind.INTERNAL⟩ : ChildNode)] ⟨1, Kind.ACTIVE_LEAF⟩ =
       none ∧
     List.Nodup [(⟨1, Kind.ACTIVE_LEAF⟩ : ChildNode), ⟨0, Kind.INTERNAL⟩]) :=
  ⟨⟨by decide, by decide, by decide⟩,
   ⟨(childList_unique [⟨0, Kind.INTERNAL⟩] ⟨0, Kind.INTERNAL⟩).1 (by decide),
    (childList_unique [⟨0, Kind.INTERNAL⟩] ⟨1, Kind.ACTIVE_LEAF⟩).2.1
      (by decide),
    (childList_unique [⟨0, Kind.INTERNAL⟩] ⟨1, Kind.ACTIVE_LEAF⟩).2.2.1
      (by decide) [⟨1, Kind.ACTIVE_LEAF⟩, ⟨0, Kind.INTERNAL⟩] (by decide)⟩⟩

/-- Appending one segment to a non-empty slash-join appends a slash and
the segment. -/
theorem joinPath_append (l : List String) (x : String) (h : l ≠ []) :
    joinPath (l ++ [x]) = joinPath l ++ "/" ++ x := by
  induction l with
  | nil => exact absurd rfl h
  | cons y ys ih =>
    cases ys with
    | nil => rfl
    | cons z zs =>
      have hz := ih (by simp)
      show y ++ "/" ++ joinPath ((z :: zs) ++ [x]) =
        (y ++ "/" ++ joinPath (z :: zs)) ++ "/" ++ x
      rw [hz]
      simp [String.append_assoc]

/-- Cached paths are the slash-join of the segment names from the root. -/
theorem path_eq_joinPath (t : PNode) : t.path = joinPath t.segs := by
  induction t with
  | root => rfl
  | child p n k ih =>
    cases p with
    | root => rfl
    | child q s kk =>
      have hne : (PNode.child q s kk).segs ≠ [] := by simp [PNode.segs]
      show (PNode.child q s kk).path ++ "/" ++ n =
        joinPath ((PNode.child q s kk).segs ++ [n])
      rw [joinPath_append _ _ hne, ih]

/-- Claim C8: `clientPath` returns the parent's full path for a node
named "." — which the fatal CHECKs force to be a leaf with a parent — and
the node's own cached path otherwise; the cached path is the slash-join
of segment names from the root: empty for the root, the name for a child
of the root, and the parent's path joined with a slash and the name
otherwise. -/
theorem clientPath_spec :
    (∀ t : PNode, t.path = joinPath t.segs) ∧
    (PNode.path PNode.root = "" ∧
     (∀ n k, PNode.path (PNode.child PNode.root n k) = n) ∧
     (∀ q s kk n k, PNode.path (PNode.child (PNode.child q s kk) n k) =
        (PNode.child q s kk).path ++ "/" ++ n)) ∧
    (∀ p k, (k = Kind.ACTIVE_LEAF ∨ k = Kind.INACTIVE_LEAF) →
       PNode.clientPath (PNode.child p "." k) = some p.path) ∧
    (∀ p k, ¬(k = Kind.ACTIVE_LEAF ∨ k = Kind.INACTIVE_LEAF) →
       PNode.clientPath (PNode.child p "." k) = none) ∧
    (∀ p n k, n ≠ "." →
       PNode.clientPath (PNode.child p n k) =
         some (PNode.path (PNode.child p n k))) := by
  refine ⟨path_eq_joinPath, ⟨rfl, fun n k => rfl, fun q s kk n k => rfl⟩,
    ?_, ?_, ?_⟩
  · intro p k hk
    simp [PNode.clientPath, hk]
  · intro p k hk
    simp [PNode.clientPath, hk]
  · intro p n k hn
    simp [PNode.clientPath, hn]

/-- Witness for C8: the virtual leaf under role a has client path a, and
an ordinary leaf b under the root has client path b. -/
theorem clientPath_spec_witness :
    ((Kind.ACTIVE_LEAF = Kind.ACTIVE_LEAF ∨
        Kind.ACTIVE_LEAF = Kind.INACTIVE_LEAF) ∧
     ("b" : String) ≠ ".") ∧
    (PNode.clientPath
        (PNode.child (PNode.child PNode.root "a" Kind.INTERNAL) "."
          Kind.ACTIVE_LEAF) =
      some (PNode.child PNode.root "a" Kind.INTERNAL).path ∧
     PNode.clientPath (PNode.child PNode.root "b" Kind.ACTIVE_LEAF) =
      some (PNode.path (PNode.child PNode.root "b" Kind.ACTIVE_LEAF))) :=
  ⟨⟨by decide, by decide⟩,
   ⟨clientPath_spec.2.2.1 (PNode.child PNode.root "a" Kind.INTERNAL)
      Kind.ACTIVE_LEAF (by decide),
    clientPath_spec.2.2.2.2 PNode.root "b" Kind.ACTIVE_LEAF (by decide)⟩⟩

/-- Weights of well-weighted trees are positive. -/
theorem wt_pos {t : WTree} (h : allPosB t = true) : 0 < wt t := by
  cases t with
  | leaf a w =>
    simp only [allPosB, decide_eq_true_eq] at h
    simpa [wt] using h
  | node w cs =>
    simp only [allPosB, Bool.and_eq_true, decide_eq_true_eq] at h
    simpa [wt] using h.1

/-- Positivity restricts to members of a list of subtrees. -/
theorem allPosL_mem {ts : List WTree} (h : allPosL ts = true) {c : WTree}
    (hc : c ∈ ts) : allPosB c = true := by
  induction ts with
  | nil => cases hc
  | cons d ds ih =>
    simp only [allPosL, Bool.and_eq_true] at h
    cases hc with
    | head => exact h.1
    | tail _ hm => exact ih h.2 hm

/-- Active-through weight sums are nonnegative on well-weighted lists. -/
theorem actW_nonneg {ts : List WTree} (h : allPosL ts = true) :
    0 ≤ actW ts := by
  induction ts with
  | nil => simp [actW]
  | cons c cs ih =>
    simp only [allPosL, Bool.and_eq_true] at h
    simp only [actW]
    apply add_nonneg _ (ih h.2)
    by_cases hA : hasAL c
    · rw [if_pos hA]
      exact le_of_lt (wt_pos h.1)
    · rw [if_neg hA]

/-- Active-through weight sums are positive when some subtree has an
active leaf. -/
theorem actW_pos {ts : List WTree} (hp : allPosL ts = true)
    (ha : hasALs ts = true) : 0 < actW ts := by
  induction ts with
  | nil => simp [hasALs] at ha
  | cons c cs ih =>
    simp only [allPosL, Bool.and_eq_true] at hp
    simp only [hasALs, Bool.or_eq_true] at ha
    simp only [actW]
    cases ha with
    | inl h =>
      rw [if_pos h]
      exact add_pos_of_pos_of_nonneg (wt_pos hp.1) (actW_nonneg hp.2)
    | inr h =>
      refine add_pos_of_nonneg_of_pos ?_ (ih hp.2 h)
      by_cases hA : hasAL c
      · rw [if_pos hA]
        exact le_of_lt (wt_pos hp.1)
      · rw [if_neg hA]

/-- Members of a children list are smaller than the node. -/
theorem sizeOf_lt_children {w : ℚ} {cs : List WTree} {c : WTree}
    (h : c ∈ cs) : sizeOf c < sizeOf (WTree.node w cs) := by
  have := List.sizeOf_lt_of_mem h
  simp only [WTree.node.sizeOf_spec]
  omega

/-- Relative weights of a subtree with positive weights and an active
leaf sum to the share the subtree receives. -/
theorem lw_sum_aux (n : ℕ) : ∀ t : WTree, sizeOf t ≤ n →
    allPosB t = true → hasAL t = true → ∀ s : ℚ, (lw t s).sum = s := by
  induction n using Nat.strong_induction_on with
  | h n ih =>
    intro t hsize hpos hact s
    cases t with
    | leaf a w =>
      simp only [hasAL] at hact
      simp [lw, hact]
    | node w cs =>
      simp only [allPosB, Bool.and_eq_true] at hpos
      simp only [hasAL] at hact
      have hW := actW_pos hpos.2 hact
      have hlist : ∀ ts : List WTree, (∀ c ∈ ts, c ∈ cs) →
          allPosL ts = true → ∀ s' : ℚ,
          (lws ts (actW cs) s').sum = actW ts * s' / actW cs := by
        intro ts
        induction ts with
        | nil =>
          intro _ _ s'
          simp [lws, actW]
        | cons c ts' ihl =>
          intro hsub hp s'
          simp only [allPosL, Bool.and_eq_true] at hp
          have hrest := ihl (fun x hx => hsub x (List.mem_cons_of_mem _ hx))
            hp.2 s'
          simp only [lws, List.sum_append]
          rw [hrest]
          by_cases hA : hasAL c
          · rw [if_pos hA]
            have hcs : c ∈ cs := hsub c (List.mem_cons_self _ _)
            have hsz : sizeOf c < sizeOf (WTree.node w cs) :=
              sizeOf_lt_children hcs
            have hlw := ih (sizeOf c) (lt_of_lt_of_le hsz hsize) c le_rfl
              hp.1 hA (s' * (wt c / actW cs))
            rw [hlw]
            simp only [actW]
            rw [if_pos hA]
            ring
          · rw [if_neg hA]
            simp only [actW]
            rw [if_neg hA]
            simp only [List.sum_nil]
            ring
      have hmain := hlist cs (fun c h => h) hpos.2 s
      simp only [lw]
      rw [hmain, mul_comm, mul_div_assoc, div_self (ne_of_gt hW), mul_one]

/-- Relative weights distributed top-down agree, entry by entry, with
the product of ancestor share factors along each active-leaf path. -/
theorem lw_paths_aux (n : ℕ) : ∀ t : WTree, sizeOf t ≤ n → ∀ s : ℚ,
    lw t s = (aps t).map (fun p => s * (relWProd t p).getD 0) := by
  induction n using Nat.strong_induction_on with
  | h n ih =>
    intro t hsize s
    cases t with
    | leaf a w => cases a <;> simp [lw, aps, relWProd, sharesAt]
    | node w cs =>
      simp only [lw, aps]
      have haux : ∀ (ts : List WTree) (i : ℕ),
          (∀ j : ℕ, ts.get? j = cs.get? (i + j)) →
          lws ts (actW cs) s =
            (apsL ts i).map
              (fun p => s * (relWProd (WTree.node w cs) p).getD 0) := by
        intro ts
        induction ts with
        | nil =>
          intro i _
          simp [lws, apsL]
        | cons c ts' ihl =>
          intro i hget
          have hc0 : cs.get? i = some c := by
            have h0 := hget 0
            rw [Nat.add_zero] at h0
            exact h0.symm
          have hc0' : cs[i]? = some c := by
            rw [← List.get?_eq_getElem?]
            exact hc0
          have htail : ∀ j, ts'.get? j = cs.get? ((i + 1) + j) := by
            intro j
            have hj := hget (j + 1)
            rw [List.get?_cons_succ] at hj
            rw [hj]
            congr 1
            omega
          simp only [lws, apsL, List.map_append]
          congr 1
          · by_cases hA : hasAL c
            · rw [if_pos hA, if_pos hA]
              have hcs : c ∈ cs := List.get?_mem hc0
              have hsz : sizeOf c < sizeOf (WTree.node w cs) :=
                sizeOf_lt_children hcs
              have hlw := ih (sizeOf c) (lt_of_lt_of_le hsz hsize) c le_rfl
                (s * (wt c / actW cs))
              rw [hlw, List.map_map]
              apply List.map_congr_left
              intro q _
              simp only [Function.comp]
              cases hsq : sharesAt c q with
              | none =>
                have h1 : relWProd c q = none := by simp [relWProd, hsq]
                have h2 : relWProd (WTree.node w cs) (i :: q) = none := by
                  simp [relWProd, sharesAt, hc0', hA, hsq]
                simp [h1, h2]
              | some l0 =>
                have h1 : relWProd c q = some l0.prod := by
                  simp [relWProd, hsq]
                have h2 : relWProd (WTree.node w cs) (i :: q) =
                    some ((wt c / actW cs) * l0.prod) := by
                  simp [relWProd, sharesAt, hc0', hA, hsq, List.prod_cons]
                simp only [h1, h2, Option.getD_some]
                ring
            · rw [if_neg hA, if_neg hA]
              simp
          · exact ihl (i + 1) htail
      exact haux cs 0 (fun j => by simp)

/-- Claim C9: on a sorter tree with positive weights and at least one
active leaf, the recomputed relative weights of the active leaves sum to
1, and each equals the product over its ancestors of the share
getWeight(c) divided by the weight sum of the active-through siblings. -/
theorem relativeWeights_spec (t : WTree) (hp : allPosB t = true)
    (ha : hasAL t = true) :
    (lw t 1).sum = 1 ∧
    lw t 1 = (aps t).map (fun p => (relWProd t p).getD 0) := by
  constructor
  · exact lw_sum_aux (sizeOf t) t le_rfl hp ha 1
  · rw [lw_paths_aux (sizeOf t) t le_rfl 1]
    apply List.map_congr_left
    intro p _
    rw [one_mul]

/-- Witness for C9: the spec's hierarchical scenario — team of weight 2
holding two active unit-weight leaves, next to an active unit-weight solo
leaf — has relative weights summing to 1 (they are 1/3 each). -/
theorem relativeWeights_spec_witness :
    (allPosB wRoot = true ∧ hasAL wRoot = true) ∧
    ((lw wRoot 1).sum = 1 ∧
     lw wRoot 1 = (aps wRoot).map (fun p => (relWProd wRoot p).getD 0)) :=
  ⟨⟨by decide, by decide⟩, relativeWeights_spec wRoot (by decide) (by decide)⟩

end RandomSorter
